import Mathlib

/-!
Verification of the Pictallion tiered media store (src-tauri/src-tauri/src/lib.rs and
src-tauri/src/photo.rs) against its natural-language specification.

The Rust code is shallowly embedded: filesystem state is an explicit association list
from paths to file contents, the photo catalog is a list of rows, and each Tauri
command becomes a pure state-passing function.  Paths are modelled as lists of
characters (the characters of the path string); machine integers (timestamps,
dimensions) are Nat.  Fallible operations return an error value together with the
state reached when the operation aborted.
-/

namespace Pictallion

/-- Paths are the character lists of path strings. -/
abbrev FilePath := List Char

/-- The path separator character used by the repository (forward slash). -/
def slash : Char := '/'

/-- Filesystem state: the set of existing files, as an association list from path to
file content.  Contents are modelled as opaque natural numbers (only equality of
byte contents matters to the claims). -/
abbrev FS := List (FilePath × Nat)

/-- Existence check, modelling Rust Path::exists. -/
def fsExists (fs : FS) (p : FilePath) : Bool :=
  fs.any (fun e => decide (e.1 = p))

/-- Read the content of the file at a path (none when the file does not exist,
which the Rust code surfaces as an io error). -/
def fsGet (fs : FS) (p : FilePath) : Option Nat :=
  (fs.find? (fun e => decide (e.1 = p))).map (fun e => e.2)

/-- Remove the file at a path. -/
def fsErase (fs : FS) (p : FilePath) : FS :=
  fs.filter (fun e => decide (e.1 ≠ p))

/-- Create or overwrite the file at a path with the given content. -/
def fsPut (fs : FS) (p : FilePath) (c : Nat) : FS :=
  (p, c) :: fsErase fs p

/-- Test that a character is not the path separator. -/
def notSep (c : Char) : Bool := decide (c ≠ slash)

/-- Test that a character is not a dot. -/
def notDot (c : Char) : Bool := decide (c ≠ '.')

/-- The file-name component of a path: the characters after the last slash
(Rust Path::file_name, total here; returns the empty list where Rust returns None). -/
def fileName (p : FilePath) : FilePath :=
  (p.reverse.takeWhile notSep).reverse

/-- The directory part of a path, including the trailing slash; with_file_name
replaces everything after it. -/
def dirOf (p : FilePath) : FilePath :=
  (p.reverse.dropWhile notSep).reverse

/-- Rust Path::with_file_name: keep the directory, replace the file name. -/
def withFileName (p n : FilePath) : FilePath := dirOf p ++ n

/-- Split a file name into stem and extension at the last dot, as Rust
Path::file_stem / Path::extension do: no dot, or only a leading dot, means the
whole name is the stem and the extension is empty. -/
def splitExt (n : FilePath) : FilePath × FilePath :=
  let extR := n.reverse.takeWhile notDot
  match n.reverse.dropWhile notDot with
  | [] => (n, [])
  | _ :: stemR => if stemR.isEmpty then (n, []) else (stemR.reverse, extR.reverse)

/-- Decimal digit characters, as produced by Rust's integer Display. -/
def digitChar (d : Nat) : Char := Nat.digitChar d

/-- Decimal rendering of a natural number (the characters the Rust format string
produces for a positive integer). -/
def natStr (n : Nat) : List Char :=
  ((Nat.digits 10 n).map digitChar).reverse

/-- The stem the probing loop uses: Rust file_stem().unwrap_or("file"). -/
def stemOf (t : FilePath) : FilePath :=
  let n := fileName t
  if n.isEmpty then ['f', 'i', 'l', 'e'] else (splitExt n).1

/-- The extension the probing loop uses: Rust extension().unwrap_or(""). -/
def extOf (t : FilePath) : FilePath := (splitExt (fileName t)).2

/-- Candidate file name number i: "stem (i)" with the extension re-attached when
present, exactly as the format strings in unique_path build it. -/
def candName (s e : FilePath) (i : Nat) : FilePath :=
  s ++ (' ' :: '(' :: natStr i) ++ (')' :: (if e.isEmpty then [] else '.' :: e))

/-- Candidate path number i for a target path. -/
def candAt (t : FilePath) (i : Nat) : FilePath :=
  withFileName t (candName (stemOf t) (extOf t) i)

/-- The probing loop of unique_path: try candidates i, i+1, ... while fuel lasts,
returning the original target as the last-resort fallback. -/
def uniqueLoop (fs : FS) (t : FilePath) : Nat → Nat → FilePath
  | _, 0 => t
  | i, fuel + 1 =>
    let c := candAt t i
    if fsExists fs c then uniqueLoop fs t (i + 1) fuel else c

/-- Embedding of unique_path: return the target unchanged when no file exists
there, otherwise probe "stem (1)", "stem (2)", ..., "stem (999)" and fall back to
the target itself when every candidate exists. -/
def unique_path (fs : FS) (t : FilePath) : FilePath :=
  if fsExists fs t then uniqueLoop fs t 1 999 else t

/-- A row of the photos table (the catalog).  Ids are modelled as opaque naturals
(uuids in the source); timestamps are seconds since the epoch as in now_ts. -/
structure Row where
  id : Nat
  originalPath : FilePath
  storagePath : FilePath
  tier : String
  hash : Nat
  createdAt : Nat
  updatedAt : Nat
  deletedAt : Option Nat
deriving DecidableEq

/-- Whole-system state: the filesystem and the photos table. -/
structure Sys where
  fs : FS
  cat : List Row
deriving DecidableEq

/-- Error taxonomy of the commands (the source returns error strings). -/
inductive Err where
  | ioError
  | notFound
  | invalidTier
  | invalidPath
deriving DecidableEq

/-- Result of add_photo: either the file was copied to this path and a row
inserted, or a hash match made the call skip the file as a duplicate. -/
inductive IngestOutcome where
  | added (path : FilePath)
  | duplicateSkipped
deriving DecidableEq

/-- Tier name constants as in the source. -/
def bronzeTier : String := "bronze"

/-- The silver tier name. -/
def silverTier : String := "silver"

/-- The gold tier name. -/
def goldTier : String := "gold"

/-- The archive tier name. -/
def archiveTier : String := "archive"

/-- The valid tier names, in the order the source lists them. -/
def validTiers : List String := [bronzeTier, silverTier, goldTier, archiveTier]

/-- Embedding of tier_dir: media root joined with the tier name. -/
def tier_dir (root : FilePath) (tier : String) : FilePath :=
  root ++ slash :: tier.toList

/-- Embedding of sha256_file: read the file and digest its content. The digest
function is passed explicitly; no collision property is assumed anywhere. -/
def sha256_file (h : Nat → Nat) (fs : FS) (p : FilePath) : Option Nat :=
  (fsGet fs p).map h

/-- Embedding of add_photo.  Arguments mirror the ambient inputs of the command:
digest function, media root, an oracle for failure of the fs::copy call, the
generated row id and the now_ts clock value.  The returned state is the state at
which the call finished (unchanged whenever an error or a duplicate is returned).
The dedup query SELECT id FROM photos WHERE hash = ? has no deleted_at filter,
and the row INSERT happens strictly after the successful copy, as in the source.
The best-effort thumbnail request at the end touches neither the catalog nor the
media files and is not modelled. -/
def add_photo (h : Nat → Nat) (mediaRoot : FilePath) (copyFail : Bool)
    (id now : Nat) (filePath : FilePath) (s : Sys) :
    Except Err IngestOutcome × Sys :=
  let destDir := tier_dir mediaRoot bronzeTier
  let filename := fileName filePath
  if filename.isEmpty then (Except.error Err.invalidPath, s)
  else
    let destPath := destDir ++ slash :: filename
    match sha256_file h s.fs filePath with
    | none => (Except.error Err.ioError, s)
    | some hsh =>
      if (s.cat.find? (fun r => decide (r.hash = hsh))).isSome then
        (Except.ok IngestOutcome.duplicateSkipped, s)
      else
        let finalPath := unique_path s.fs destPath
        match fsGet s.fs filePath with
        | none => (Except.error Err.ioError, s)
        | some content =>
          if copyFail then (Except.error Err.ioError, s)
          else
            let fs' := fsPut s.fs finalPath content
            let row : Row :=
              { id := id, originalPath := filePath, storagePath := finalPath,
                tier := bronzeTier, hash := hsh, createdAt := now,
                updatedAt := now, deletedAt := none }
            (Except.ok (IngestOutcome.added finalPath),
             { fs := fs', cat := row :: s.cat })

/-- Embedding of promote_photo_tier.  The std::fs::rename call follows POSIX
semantics (Rust std::fs::rename on Unix): an existing destination file is
replaced atomically; the rename fails only when the source is missing or the
injected io-failure oracle fires.  The catalog UPDATE runs strictly after the
successful rename, as in the source. -/
def promote_photo_tier (mediaRoot : FilePath) (renameFail : Bool) (now : Nat)
    (photoId : Nat) (tier : String) (s : Sys) : Except Err Unit × Sys :=
  if ¬ validTiers.contains tier then (Except.error Err.invalidTier, s)
  else
    match s.cat.find? (fun r => decide (r.id = photoId)) with
    | none => (Except.error Err.notFound, s)
    | some r =>
      let currentPath := r.storagePath
      let filename := fileName currentPath
      if filename.isEmpty then (Except.error Err.invalidPath, s)
      else
        let newPath := tier_dir mediaRoot tier ++ slash :: filename
        match fsGet s.fs currentPath with
        | none => (Except.error Err.ioError, s)
        | some content =>
          if renameFail then (Except.error Err.ioError, s)
          else
            let fs' := fsPut (fsErase s.fs currentPath) newPath content
            let cat' := s.cat.map (fun q =>
              if q.id = photoId then
                { q with storagePath := newPath, tier := tier, updatedAt := now }
              else q)
            (Except.ok (), { fs := fs', cat := cat' })

/-- Embedding of delete_photo.  The row lookup SELECT storage_path FROM photos
WHERE id = ? has no deleted_at filter.  For a permanent delete the file removal
is best effort (a missing file is tolerated) and the row is removed.  Otherwise
the file is moved (POSIX rename, as in promotion) to a collision-probed path
under the trash root and the same row gets the trash path and a deleted
timestamp — strictly after the successful rename. -/
def delete_photo (trashRoot : FilePath) (renameFail : Bool) (now : Nat)
    (photoId : Nat) (permanent : Bool) (s : Sys) : Except Err Unit × Sys :=
  match s.cat.find? (fun r => decide (r.id = photoId)) with
  | none => (Except.error Err.notFound, s)
  | some r =>
    if permanent then
      (Except.ok (), { fs := fsErase s.fs r.storagePath,
                       cat := s.cat.filter (fun q => decide (q.id ≠ photoId)) })
    else
      let src := r.storagePath
      let fname := fileName src
      let filename := if fname.isEmpty then ['p', 'h', 'o', 't', 'o'] else fname
      let dest := unique_path s.fs (trashRoot ++ slash :: filename)
      match fsGet s.fs src with
      | none => (Except.error Err.ioError, s)
      | some content =>
        if renameFail then (Except.error Err.ioError, s)
        else
          let fs' := fsPut (fsErase s.fs src) dest content
          let cat' := s.cat.map (fun q =>
            if q.id = photoId then
              { q with storagePath := dest, deletedAt := some now }
            else q)
          (Except.ok (), { fs := fs', cat := cat' })

/-- Embedding of the list_photos query: SELECT ... FROM photos WHERE deleted_at
IS NULL.  The ORDER BY updated_at DESC clause only affects presentation order
and is not modelled; the claims about this query concern membership. -/
def list_photos (cat : List Row) : List Row :=
  cat.filter (fun r => decide (r.deletedAt = none))

/-- A row of the faces table (only the columns the read queries use). -/
structure Face where
  photoId : Nat
  personId : Option Nat
deriving DecidableEq

/-- Embedding of the list_photos_by_person query: photos joined with faces on
the person, with the deleted_at IS NULL filter. -/
def list_photos_by_person (personId : Nat) (faces : List Face)
    (cat : List Row) : List Row :=
  cat.filter (fun p =>
    decide (p.deletedAt = none) &&
    faces.any (fun f => decide (f.photoId = p.id ∧ f.personId = some personId)))

/-- The optional filters of search_photos. -/
structure SearchFilters where
  personId : Option Nat
  tagId : Option Nat
  tier : Option String
  dateFrom : Option Nat
  dateTo : Option Nat
deriving DecidableEq

/-- Embedding of the search_photos query builder: each supplied filter adds a
conjunct, and the p.deleted_at IS NULL clause is always pushed. -/
def search_photos (f : SearchFilters) (faces : List Face)
    (photoTags : List (Nat × Nat)) (cat : List Row) : List Row :=
  cat.filter (fun p =>
    (match f.personId with
     | none => true
     | some pid => faces.any (fun fc =>
         decide (fc.photoId = p.id ∧ fc.personId = some pid))) &&
    (match f.tier with
     | none => true
     | some t => decide (p.tier = t)) &&
    (match f.tagId with
     | none => true
     | some tg => photoTags.any (fun e => decide (e.1 = p.id ∧ e.2 = tg))) &&
    (match f.dateFrom with
     | none => true
     | some df => decide (df ≤ p.createdAt)) &&
    (match f.dateTo with
     | none => true
     | some dt => decide (p.createdAt ≤ dt)) &&
    decide (p.deletedAt = none))

/-- Embedding of the list_album_photos query: photos joined with album_photos on
the album id.  The source query has no deleted_at IS NULL filter. -/
def list_album_photos (albumId : Nat) (links : List (Nat × Nat))
    (cat : List Row) : List Row :=
  cat.filter (fun p => links.any (fun e => decide (e.1 = albumId ∧ e.2 = p.id)))

/-- Round-half-away-from-zero of the nonnegative fraction num/den as an
integer: floor((2*num + den) / (2*den)).  This is f32::round restricted to the
nonnegative values arising here. -/
def roundHalf (num den : Nat) : Nat := (2 * num + den) / (2 * den)

/-- Fuel-driven floor base-2 logarithm, structurally recursive so that the
kernel can evaluate it. -/
def log2fuel : Nat → Nat → Nat
  | 0, _ => 0
  | fuel + 1, n => if 2 ≤ n then log2fuel fuel (n / 2) + 1 else 0

/-- Floor base-2 logarithm of a natural number (64 steps of fuel cover every
value arising here). -/
def nlog2 (n : Nat) : Nat := log2fuel 64 n

/-- Decide whether 2^k is at most the positive fraction a/b. -/
def pow2LeFrac (k : ℤ) (a b : Nat) : Bool :=
  if 0 ≤ k then decide (2 ^ k.toNat * b ≤ a) else decide (b ≤ a * 2 ^ (-k).toNat)

/-- Floor base-2 logarithm of the positive fraction a/b: the numerator and
denominator logarithms give a first guess, corrected by direct comparison. -/
def fracLog2 (a b : Nat) : ℤ :=
  let k0 : ℤ := (nlog2 a : ℤ) - (nlog2 b : ℤ)
  if pow2LeFrac k0 a b = false then k0 - 1
  else if pow2LeFrac (k0 + 1) a b then k0 + 1
  else k0

/-- Round the nonnegative fraction a/b to the nearest integer, ties to even. -/
def rndEven (a b : Nat) : Nat :=
  let n := a / b
  let r := a % b
  if 2 * r < b then n
  else if b < 2 * r then n + 1
  else if n % 2 = 0 then n else n + 1

/-- Round the nonnegative fraction a/b to the nearest IEEE-754 binary32 value
(24-bit significand, round to nearest, ties to even), returned as an exact
unreduced dyadic fraction.  On the value range reachable in
resize_keep_aspect every intermediate is a finite normal f32, so exponent
bounds, subnormals and non-numbers cannot arise and this is exactly the Rust
f32 arithmetic of the source. -/
def f32near (a b : Nat) : Nat × Nat :=
  if a = 0 ∨ b = 0 then (0, 1)
  else
    let e : ℤ := fracLog2 a b - 23
    if 0 ≤ e then (rndEven a (b * 2 ^ e.toNat) * 2 ^ e.toNat, 1)
    else (rndEven (a * 2 ^ (-e).toNat) b, 2 ^ (-e).toNat)

/-- A u32 converted to f32, as the Rust as-cast does (round to nearest even). -/
def f32ofNat (n : Nat) : Nat × Nat := f32near n 1

/-- f32 multiplication of exact dyadic operands: exact product, one rounding. -/
def f32mul (x y : Nat × Nat) : Nat × Nat := f32near (x.1 * y.1) (x.2 * y.2)

/-- f32 division of exact dyadic operands: exact quotient, one rounding. -/
def f32div (x y : Nat × Nat) : Nat × Nat := f32near (x.1 * y.2) (x.2 * y.1)

/-- Rust f32::round (ties away from zero) followed by the saturating as-u32
cast, on the nonnegative values arising here. -/
def f32roundU32 (x : Nat × Nat) : Nat := min (roundHalf x.1 x.2) (2 ^ 32 - 1)

/-- The scaled short side exactly as the source computes it in 32-bit floating
point: (short as f32 * (maxDim as f32 / long as f32)).round() as u32. -/
def scaledSide (short long maxDim : Nat) : Nat :=
  f32roundU32 (f32mul (f32ofNat short) (f32div (f32ofNat maxDim) (f32ofNat long)))

/-- Embedding of resize_keep_aspect restricted to the produced dimensions (the
pixel resampling filter is irrelevant to the claims).  Mirrors the source: no
resize when both sides already fit, otherwise the w >= h branch clamps the
width and computes the height in f32, and the other branch symmetrically. -/
def resize_keep_aspect (w h maxDim : Nat) : Nat × Nat :=
  if w ≤ maxDim ∧ h ≤ maxDim then (w, h)
  else if h ≤ w then (maxDim, scaledSide h w maxDim)
  else (scaledSide w h maxDim, maxDim)

/-- A row of the legacy file_versions table as read by PhotoManager
(id, file_path, tier and the created_at ordering key). -/
structure FVRow where
  id : Nat
  filePath : FilePath
  tier : String
  createdAt : Nat
deriving DecidableEq

/-- Modification time of a photo as detect_bursts reads it: filesystem metadata,
falling back to the Unix epoch (0) when the metadata call fails. -/
def burstTs (mtime : FilePath → Option Nat) (p : FilePath) : Nat :=
  (mtime p).getD 0

/-- The prefix the burst walk compares: file_path.split the first underscore
segment (the whole path when it has no underscore). -/
def prefixPart (p : FilePath) : FilePath :=
  p.takeWhile (fun c => decide (c ≠ '_'))

/-- Insertion step of the ORDER BY created_at ASC sort. -/
def insertByCreated (a : FVRow) : List FVRow → List FVRow
  | [] => [a]
  | b :: l =>
    if a.createdAt ≤ b.createdAt then a :: b :: l else b :: insertByCreated a l

/-- Insertion sort by created_at ascending, modelling the SQL ordering of the
detect_bursts query. -/
def sortByCreated (l : List FVRow) : List FVRow := l.foldr insertByCreated []

/-- Walk state of detect_bursts (closed groups, open group, previous photo's
time and path prefix). -/
structure BurstState where
  bursts : List (List FVRow)
  current : List FVRow
  lastTime : Option Nat
  lastPref : Option FilePath
deriving DecidableEq

/-- One iteration of the detect_bursts loop.  The diff is
ts.duration_since(last).unwrap_or_default().as_secs(): truncated subtraction, so
a photo whose time is earlier than the previous photo's yields diff 0. -/
def burstStep (mtime : FilePath → Option Nat) (st : BurstState)
    (photo : FVRow) : BurstState :=
  let ts := burstTs mtime photo.filePath
  let pr := prefixPart photo.filePath
  let st' :=
    match st.lastTime with
    | some lt =>
      if ts - lt ≤ 10 ∧ st.lastPref = some pr then
        { st with current := st.current ++ [photo] }
      else
        { st with
          bursts := if st.current.length > 1 then st.bursts ++ [st.current]
                    else st.bursts,
          current := [photo] }
    | none => { st with current := st.current ++ [photo] }
  { st' with lastTime := some ts, lastPref := some pr }

/-- Embedding of PhotoManager::detect_bursts: all file_versions rows ordered by
created_at ascending, then the linear grouping walk; the open group is emitted
at the end only when it has at least two members. -/
def detect_bursts (mtime : FilePath → Option Nat)
    (rows : List FVRow) : List (List FVRow) :=
  let photos := sortByCreated rows
  let st := photos.foldl (burstStep mtime) ⟨[], [], none, none⟩
  if st.current.length > 1 then st.bursts ++ [st.current] else st.bursts

/-- Insertion step for ordering photos by modification time. -/
def insertByTs (mtime : FilePath → Option Nat) (a : FVRow) :
    List FVRow → List FVRow
  | [] => [a]
  | b :: l =>
    if burstTs mtime a.filePath ≤ burstTs mtime b.filePath then a :: b :: l
    else b :: insertByTs mtime a l

/-- Insertion sort by modification time ascending. -/
def sortByTs (mtime : FilePath → Option Nat) (l : List FVRow) : List FVRow :=
  l.foldr (insertByTs mtime) []

/-- Modelled from the spec, for comparison with detect_bursts: orders photos by
filesystem modification time ascending and walks them, joining the open group
exactly when the photo's modification time is within 10 seconds of the previous
photo's and its file name shares the prefix up to the first underscore with the
previous photo's file name; a closed group is emitted only with at least two
members. -/
def detectBurstsSpec (mtime : FilePath → Option Nat)
    (rows : List FVRow) : List (List FVRow) :=
  let photos := sortByTs mtime rows
  let step := fun (st : BurstState) (photo : FVRow) =>
    let ts := burstTs mtime photo.filePath
    let pr := prefixPart (fileName photo.filePath)
    let st' :=
      match st.lastTime with
      | some lt =>
        if ts - lt ≤ 10 ∧ st.lastPref = some pr then
          { st with current := st.current ++ [photo] }
        else
          { st with
            bursts := if st.current.length > 1 then st.bursts ++ [st.current]
                      else st.bursts,
            current := [photo] }
      | none => { st with current := st.current ++ [photo] }
    { st' with lastTime := some ts, lastPref := some pr }
  let st := photos.foldl step ⟨[], [], none, none⟩
  if st.current.length > 1 then st.bursts ++ [st.current] else st.bursts

/-- Repeated allocation against an unchanged filesystem: n successive
unique_path calls with no file created in between. -/
def allocNoCreate : Nat → FS → FilePath → List FilePath
  | 0, _, _ => []
  | n + 1, fs, t => unique_path fs t :: allocNoCreate n fs t

/-- Repeated allocation where a file is created at each returned path before the
next call (content 0; contents are irrelevant to existence checks). -/
def allocCreate : Nat → FS → FilePath → List FilePath
  | 0, _, _ => []
  | n + 1, fs, t =>
    let p := unique_path fs t
    p :: allocCreate n (fsPut fs p 0) t

/-- The join condition the walk evaluates between the previous photo a and the
current photo b: truncated time difference at most 10 seconds and equal path
prefixes up to the first underscore. -/
def joinCond (mtime : FilePath → Option Nat) (a b : FVRow) : Prop :=
  burstTs mtime b.filePath - burstTs mtime a.filePath ≤ 10 ∧
  prefixPart b.filePath = prefixPart a.filePath

/-- Invariant of the walk state: every closed group has at least two members
and is chained by the join condition; the open group is chained; the cached
time and prefix belong to the last photo of the open group. -/
def GoodState (mtime : FilePath → Option Nat) (st : BurstState) : Prop :=
  (∀ g ∈ st.bursts, 2 ≤ g.length ∧ g.Chain' (joinCond mtime)) ∧
  st.current.Chain' (joinCond mtime) ∧
  (∀ p, st.current.getLast? = some p →
    st.lastTime = some (burstTs mtime p.filePath) ∧
    st.lastPref = some (prefixPart p.filePath)) ∧
  (st.current = [] → st.lastTime = none)

/-- Concrete media root used by witnesses. -/
def rootMedia : FilePath := "data/media".toList

/-- Concrete trash root used by witnesses. -/
def rootTrash : FilePath := "data/trash".toList

/-- Concrete target path for allocator witnesses. -/
def pWitA : FilePath := "dir/a.jpg".toList

/-- Filesystem containing the allocator witness target and all 999 numbered
candidate paths. -/
def fsFull : FS :=
  (pWitA, 0) :: (List.range' 1 999).map (fun i => (candAt pWitA i, 0))

/-- Source path of the witness ingests. -/
def srcY : FilePath := "in/y.jpg".toList

/-- A second source path carrying identical content. -/
def srcZ : FilePath := "in/z.jpg".toList

/-- A soft-deleted catalog row whose hash is 42. -/
def rowTrashed : Row :=
  { id := 9, originalPath := "orig/x.jpg".toList,
    storagePath := "data/trash/x.jpg".toList, tier := bronzeTier, hash := 42,
    createdAt := 0, updatedAt := 0, deletedAt := some 5 }

/-- System whose only catalog row is soft-deleted, with a source file of the
same content present on disk. -/
def sysTrashed : Sys := { fs := [(srcY, 42)], cat := [rowTrashed] }

/-- System with two identical source files and an empty catalog. -/
def sysTwin : Sys := { fs := [(srcY, 42), (srcZ, 42)], cat := [] }

/-- An active bronze-tier row. -/
def rowB : Row :=
  { id := 1, originalPath := srcY,
    storagePath := "data/media/bronze/x.jpg".toList, tier := bronzeTier,
    hash := 7, createdAt := 0, updatedAt := 0, deletedAt := none }

/-- System for the promotion and deletion witnesses: the bronze file exists. -/
def sysB : Sys := { fs := [("data/media/bronze/x.jpg".toList, 7)], cat := [rowB] }

/-- The gold-tier destination of rowB's file name. -/
def goldX : FilePath := "data/media/gold/x.jpg".toList

/-- System in which a different file already exists at the gold destination. -/
def sysGold : Sys :=
  { fs := [("data/media/bronze/x.jpg".toList, 7), (goldX, 9)], cat := [rowB] }

/-- Scenario row IMG_001.jpg. -/
def scenA : FVRow :=
  { id := 1, filePath := "IMG_001.jpg".toList, tier := bronzeTier, createdAt := 0 }

/-- Scenario row IMG_002.jpg. -/
def scenB : FVRow :=
  { id := 2, filePath := "IMG_002.jpg".toList, tier := bronzeTier, createdAt := 1 }

/-- Scenario row IMG_999.jpg. -/
def scenC : FVRow :=
  { id := 3, filePath := "IMG_999.jpg".toList, tier := bronzeTier, createdAt := 2 }

/-- The three scenario rows. -/
def scenRows : List FVRow := [scenA, scenB, scenC]

/-- Modification times of the scenario photos: 0, 5 and 5000 seconds. -/
def mtScen : FilePath → Option Nat := fun p =>
  if p = scenA.filePath then some 0
  else if p = scenB.filePath then some 5
  else if p = scenC.filePath then some 5000
  else none

/-- Counterexample row whose catalog creation time is first but whose
modification time is 100. -/
def cexA : FVRow :=
  { id := 1, filePath := "IMG_a.jpg".toList, tier := bronzeTier, createdAt := 0 }

/-- Counterexample row created second, with modification time 0. -/
def cexB : FVRow :=
  { id := 2, filePath := "IMG_b.jpg".toList, tier := bronzeTier, createdAt := 1 }

/-- Counterexample row created third, with modification time 105. -/
def cexC : FVRow :=
  { id := 3, filePath := "IMG_c.jpg".toList, tier := bronzeTier, createdAt := 2 }

/-- The three counterexample rows. -/
def cexRows : List FVRow := [cexA, cexB, cexC]

/-- Modification times of the counterexample photos: 100, 0 and 105 seconds. -/
def mtCex : FilePath → Option Nat := fun p =>
  if p = cexA.filePath then some 100
  else if p = cexB.filePath then some 0
  else if p = cexC.filePath then some 105
  else none

instance {ε α : Type} [DecidableEq ε] [DecidableEq α] :
    DecidableEq (Except ε α) := fun a b =>
  match a, b with
  | .ok x, .ok y =>
    if h : x = y then .isTrue (by rw [h]) else .isFalse (by simp [h])
  | .error x, .error y =>
    if h : x = y then .isTrue (by rw [h]) else .isFalse (by simp [h])
  | .ok _, .error _ => .isFalse (by simp)
  | .error _, .ok _ => .isFalse (by simp)

/-! Path algebra: decomposition of a path into directory and file name, and
distinctness of the numbered candidate names. -/

theorem dirOf_append_fileName (p : FilePath) : dirOf p ++ fileName p = p := by
  unfold dirOf fileName
  rw [← List.reverse_append, List.takeWhile_append_dropWhile, List.reverse_reverse]

theorem takeWhile_append_stop {p : Char → Bool} (l1 l2 : List Char) (c : Char)
    (h1 : ∀ x ∈ l1, p x = true) (hc : p c = false) :
    (l1 ++ c :: l2).takeWhile p = l1 := by
  induction l1 with
  | nil =>
    rw [List.nil_append, List.takeWhile_cons_of_neg (by simp [hc])]
  | cons a l ih =>
    have ha : p a = true := h1 a (by simp)
    rw [List.cons_append, List.takeWhile_cons_of_pos ha,
        ih (fun x hx => h1 x (by simp [hx]))]

theorem dropWhile_append_stop {p : Char → Bool} (l1 l2 : List Char) (c : Char)
    (h1 : ∀ x ∈ l1, p x = true) (hc : p c = false) :
    (l1 ++ c :: l2).dropWhile p = c :: l2 := by
  induction l1 with
  | nil =>
    rw [List.nil_append, List.dropWhile_cons_of_neg (by simp [hc])]
  | cons a l ih =>
    have ha : p a = true := h1 a (by simp)
    rw [List.cons_append, List.dropWhile_cons_of_pos ha,
        ih (fun x hx => h1 x (by simp [hx]))]

theorem notSep_of_not_mem {n : FilePath} (h : slash ∉ n) :
    ∀ x ∈ n.reverse, notSep x = true := by
  intro x hx
  unfold notSep
  simp only [decide_eq_true_eq]
  intro hx2
  exact h (List.mem_reverse.mp (hx2 ▸ hx))

theorem fileName_sep_free {n : FilePath} (d : FilePath) (h : slash ∉ n) :
    fileName (d ++ slash :: n) = n := by
  unfold fileName
  rw [List.reverse_append, List.reverse_cons, List.append_assoc,
      List.singleton_append]
  rw [takeWhile_append_stop n.reverse d.reverse slash (notSep_of_not_mem h)
      (by unfold notSep; simp)]
  exact List.reverse_reverse n

theorem dirOf_sep_free {n : FilePath} (d : FilePath) (h : slash ∉ n) :
    dirOf (d ++ slash :: n) = d ++ [slash] := by
  unfold dirOf
  rw [List.reverse_append, List.reverse_cons, List.append_assoc,
      List.singleton_append]
  rw [dropWhile_append_stop n.reverse d.reverse slash (notSep_of_not_mem h)
      (by unfold notSep; simp)]
  rw [List.reverse_cons, List.reverse_reverse]

theorem dropWhile_head_false {p : Char → Bool} :
    ∀ (l : List Char) (c : Char) (r : List Char),
      l.dropWhile p = c :: r → p c = false := by
  intro l
  induction l with
  | nil => intro c r h; simp [List.dropWhile] at h
  | cons a l ih =>
    intro c r h
    by_cases hp : p a
    · rw [List.dropWhile_cons_of_pos hp] at h; exact ih c r h
    · rw [List.dropWhile_cons_of_neg hp] at h
      cases h; simpa using hp

theorem splitExt_eq_of_nil {n : FilePath} (h : n.reverse.dropWhile notDot = []) :
    splitExt n = (n, []) := by
  simp only [splitExt, h]

theorem splitExt_eq_of_stem_nil {n : FilePath} {c : Char}
    (h : n.reverse.dropWhile notDot = [c]) : splitExt n = (n, []) := by
  simp only [splitExt, h, List.isEmpty_nil, if_true]

theorem splitExt_eq_of_cons {n : FilePath} {c : Char} {stemR : List Char}
    (h : n.reverse.dropWhile notDot = c :: stemR) (hst : stemR ≠ []) :
    splitExt n = (stemR.reverse, (n.reverse.takeWhile notDot).reverse) := by
  simp only [splitExt, h]
  rw [if_neg (by simpa [List.isEmpty_iff] using hst)]

/-- Structure of splitExt: either the name has no usable extension and is
returned whole with an empty extension, or the name decomposes as
stem ++ dot ++ extension with a nonempty stem. -/
theorem splitExt_cases (n : FilePath) :
    splitExt n = (n, []) ∨
      (n = (splitExt n).1 ++ '.' :: (splitExt n).2 ∧ (splitExt n).1 ≠ []) := by
  cases hdw : n.reverse.dropWhile notDot with
  | nil => exact Or.inl (splitExt_eq_of_nil hdw)
  | cons c stemR =>
    by_cases hst : stemR = []
    · subst hst
      exact Or.inl (splitExt_eq_of_stem_nil hdw)
    · right
      have hsp := splitExt_eq_of_cons hdw hst
      have hceq : c = '.' := by
        have := dropWhile_head_false n.reverse c stemR hdw
        unfold notDot at this
        simpa using this
      have hsplit := List.takeWhile_append_dropWhile (p := notDot) (l := n.reverse)
      rw [hdw, hceq] at hsplit
      constructor
      · rw [hsp]
        conv_lhs => rw [← List.reverse_reverse n, ← hsplit]
        rw [List.reverse_append, List.reverse_cons, List.append_assoc,
            List.singleton_append]
      · rw [hsp]
        simpa using hst

theorem digitChar_inj10 :
    ∀ a : Nat, a < 10 → ∀ b : Nat, b < 10 →
      digitChar a = digitChar b → a = b := by
  decide

theorem map_digitChar_inj :
    ∀ l1 l2 : List Nat, (∀ x ∈ l1, x < 10) → (∀ x ∈ l2, x < 10) →
      l1.map digitChar = l2.map digitChar → l1 = l2 := by
  intro l1
  induction l1 with
  | nil => intro l2 _ _ h; cases l2 <;> simp_all
  | cons a l ih =>
    intro l2 h1 h2 h
    cases l2 with
    | nil => simp at h
    | cons b m =>
      simp only [List.map_cons, List.cons.injEq] at h
      have hab : a = b :=
        digitChar_inj10 a (h1 a (by simp)) b (h2 b (by simp)) h.1
      have := ih m (fun x hx => h1 x (by simp [hx]))
        (fun x hx => h2 x (by simp [hx])) h.2
      rw [hab, this]

theorem natStr_inj {m n : Nat} (h : natStr m = natStr n) : m = n := by
  unfold natStr at h
  have h2 := List.reverse_injective h
  have h3 := map_digitChar_inj (Nat.digits 10 m) (Nat.digits 10 n)
    (fun x hx => Nat.digits_lt_base (by norm_num) hx)
    (fun x hx => Nat.digits_lt_base (by norm_num) hx) h2
  have := congrArg (Nat.ofDigits 10) h3
  rwa [Nat.ofDigits_digits, Nat.ofDigits_digits] at this

theorem candName_inj {s e : FilePath} {i j : Nat}
    (h : candName s e i = candName s e j) : i = j := by
  unfold candName at h
  have h1 := List.append_cancel_right h
  have h2 := List.append_cancel_left h1
  simp only [List.cons.injEq, true_and] at h2
  exact natStr_inj h2

theorem candName_ne_plain (t : FilePath) (i : Nat) :
    candName (stemOf t) (extOf t) i ≠ fileName t := by
  intro h
  unfold candName stemOf extOf at h
  by_cases hemp : (fileName t).isEmpty
  · rw [if_pos hemp] at h
    rw [List.isEmpty_iff] at hemp
    rw [hemp] at h
    simp at h
  · rw [if_neg hemp] at h
    rcases splitExt_cases (fileName t) with hc | ⟨hdec, _⟩
    · have hS : (splitExt (fileName t)).1 = fileName t := by rw [hc]
      have hE : (splitExt (fileName t)).2 = [] := by rw [hc]
      rw [hS, hE] at h
      have := congrArg List.length h
      simp [List.length_append] at this
    · have h2 := h.trans hdec
      rw [List.append_assoc] at h2
      have h3 := List.append_cancel_left h2
      rw [List.cons_append] at h3
      injection h3 with h4 _
      exact absurd h4 (by decide)

theorem candAt_inj {t : FilePath} {i j : Nat}
    (h : candAt t i = candAt t j) : i = j := by
  unfold candAt withFileName at h
  exact candName_inj (List.append_cancel_left h)

theorem candAt_ne_self (t : FilePath) (i : Nat) : candAt t i ≠ t := by
  intro h
  unfold candAt withFileName at h
  have h2 := h.trans (dirOf_append_fileName t).symm
  exact candName_ne_plain t i (List.append_cancel_left h2)

/-! Behaviour of the unique_path probing loop. -/

theorem uniqueLoop_result (fs : FS) (t : FilePath) :
    ∀ fuel i, uniqueLoop fs t i fuel = t ∨
      fsExists fs (uniqueLoop fs t i fuel) = false := by
  intro fuel
  induction fuel with
  | zero => intro i; exact Or.inl rfl
  | succ fuel ih =>
    intro i
    unfold uniqueLoop
    by_cases hc : fsExists fs (candAt t i)
    · rw [if_pos hc]; exact ih (i + 1)
    · rw [if_neg hc]; exact Or.inr (by simpa using hc)

/-- The allocator either returns a path at which no file exists, or falls back
to the (possibly colliding) original target. -/
theorem unique_path_result (fs : FS) (t : FilePath) :
    unique_path fs t = t ∨ fsExists fs (unique_path fs t) = false := by
  unfold unique_path
  by_cases ht : fsExists fs t
  · rw [if_pos ht]; exact uniqueLoop_result fs t 999 1
  · rw [if_neg ht]; exact Or.inl rfl

theorem unique_path_of_not_exists {fs : FS} {t : FilePath}
    (h : fsExists fs t = false) : unique_path fs t = t := by
  unfold unique_path
  rw [h]
  simp

theorem uniqueLoop_eq_of_first_free (fs : FS) (t : FilePath) :
    ∀ fuel i k, i ≤ k → k < i + fuel →
      fsExists fs (candAt t k) = false →
      (∀ j, i ≤ j → j < k → fsExists fs (candAt t j) = true) →
      uniqueLoop fs t i fuel = candAt t k := by
  intro fuel
  induction fuel with
  | zero => intro i k hik hk _ _; omega
  | succ fuel ih =>
    intro i k hik hk hfree hocc
    unfold uniqueLoop
    by_cases hik2 : i = k
    · subst hik2
      rw [if_neg (by simp [hfree])]
    · have hlt : i < k := lt_of_le_of_ne hik hik2
      rw [if_pos (hocc i le_rfl hlt)]
      exact ih (i + 1) k hlt (by omega) hfree
        (fun j hj1 hj2 => hocc j (by omega) hj2)

theorem uniqueLoop_free_of_free (fs : FS) (t : FilePath) :
    ∀ fuel i, (∃ k, i ≤ k ∧ k < i + fuel ∧ fsExists fs (candAt t k) = false) →
      fsExists fs (uniqueLoop fs t i fuel) = false := by
  intro fuel
  induction fuel with
  | zero => rintro i ⟨k, hik, hk, _⟩; omega
  | succ fuel ih =>
    rintro i ⟨k, hik, hk, hfree⟩
    unfold uniqueLoop
    by_cases hc : fsExists fs (candAt t i)
    · rw [if_pos hc]
      refine ih (i + 1) ⟨k, ?_, by omega, hfree⟩
      rcases Nat.eq_or_lt_of_le hik with he | hlt
      · subst he; rw [hfree] at hc; cases hc
      · omega
    · rw [if_neg hc]
      simpa using hc

theorem uniqueLoop_all_taken (fs : FS) (t : FilePath) :
    ∀ fuel i, (∀ j, i ≤ j → j < i + fuel → fsExists fs (candAt t j) = true) →
      uniqueLoop fs t i fuel = t := by
  intro fuel
  induction fuel with
  | zero => intro i _; rfl
  | succ fuel ih =>
    intro i hall
    unfold uniqueLoop
    rw [if_pos (hall i le_rfl (by omega))]
    exact ih (i + 1) (fun j hj1 hj2 => hall j (by omega) (by omega))

/-! Behaviour of filesystem updates as seen by the existence check. -/

theorem fsExists_cons (e : FilePath × Nat) (fs : FS) (q : FilePath) :
    fsExists (e :: fs) q = (decide (e.1 = q) || fsExists fs q) := by
  simp [fsExists]

theorem fsExists_erase (fs : FS) (p q : FilePath) :
    fsExists (fsErase fs p) q = if q = p then false else fsExists fs q := by
  induction fs with
  | nil => simp [fsErase, fsExists]
  | cons e fs ih =>
    by_cases hep : e.1 = p
    · rw [show fsErase (e :: fs) p = fsErase fs p by simp [fsErase, hep]]
      rw [ih, fsExists_cons]
      by_cases hqp : q = p
      · simp [hqp]
      · have : e.1 ≠ q := by rw [hep]; exact fun he => hqp he.symm
        simp [hqp, this]
    · rw [show fsErase (e :: fs) p = e :: fsErase fs p by simp [fsErase, hep]]
      rw [fsExists_cons, ih, fsExists_cons]
      by_cases hqp : q = p
      · have : e.1 ≠ q := by rw [hqp]; exact hep
        simp [hqp, this, hep]
      · simp [hqp, hep]

theorem fsExists_put (fs : FS) (p : FilePath) (c : Nat) (q : FilePath) :
    fsExists (fsPut fs p c) q = (decide (q = p) || fsExists fs q) := by
  rw [fsPut, fsExists_cons, fsExists_erase]
  by_cases hqp : q = p
  · simp [hqp]
  · have hpq : ¬ p = q := fun hh => hqp hh.symm
    simp [hqp, hpq]

/-! Exact trace of repeated allocate-and-create runs. -/

theorem allocCreate_trace (t : FilePath) :
    ∀ n k fs, 1 ≤ k → k + n ≤ 1000 →
      (∀ q, fsExists fs q = true ↔
        (q = t ∨ ∃ i, 1 ≤ i ∧ i < k ∧ q = candAt t i)) →
      allocCreate n fs t = (List.range' k n).map (candAt t) := by
  intro n
  induction n with
  | zero => intro k fs _ _ _; rfl
  | succ n ih =>
    intro k fs hk hkn hfs
    have hex : fsExists fs t = true := (hfs t).mpr (Or.inl rfl)
    have hckfree : fsExists fs (candAt t k) = false := by
      by_contra hc
      have := (hfs (candAt t k)).mp (by simpa using hc)
      rcases this with he | ⟨i, hi1, hi2, hie⟩
      · exact candAt_ne_self t k he
      · have := candAt_inj hie
        omega
    have hstep : unique_path fs t = candAt t k := by
      unfold unique_path
      rw [if_pos hex]
      exact uniqueLoop_eq_of_first_free fs t 999 1 k hk (by omega) hckfree
        (fun j hj1 hj2 => (hfs (candAt t j)).mpr (Or.inr ⟨j, hj1, hj2, rfl⟩))
    show unique_path fs t :: allocCreate n (fsPut fs (unique_path fs t) 0) t =
      (List.range' k (n + 1)).map (candAt t)
    rw [List.range'_succ, List.map_cons, hstep]
    congr 1
    refine ih (k + 1) _ (by omega) (by omega) ?_
    intro q
    rw [fsExists_put]
    constructor
    · intro hq
      rcases Bool.or_eq_true_iff.mp hq with h1 | h2
      · right
        exact ⟨k, hk, by omega, by simpa using h1⟩
      · rcases (hfs q).mp h2 with he | ⟨i, hi1, hi2, hie⟩
        · exact Or.inl he
        · exact Or.inr ⟨i, hi1, by omega, hie⟩
    · intro hq
      rcases hq with he | ⟨i, hi1, hi2, hie⟩
      · exact Bool.or_eq_true_iff.mpr (Or.inr ((hfs q).mpr (Or.inl he)))
      · by_cases hik : i = k
        · subst hik
          exact Bool.or_eq_true_iff.mpr (Or.inl (by simp [hie]))
        · exact Bool.or_eq_true_iff.mpr
            (Or.inr ((hfs q).mpr (Or.inr ⟨i, hi1, by omega, hie⟩)))

/-- From an empty filesystem, n allocate-and-create rounds return the target
followed by the candidates numbered 1 through n-1. -/
theorem allocCreate_empty (t : FilePath) :
    ∀ n, n ≤ 1000 → 1 ≤ n →
      allocCreate n [] t = t :: (List.range' 1 (n - 1)).map (candAt t) := by
  intro n hn hn1
  obtain ⟨m, rfl⟩ : ∃ m, n = m + 1 := ⟨n - 1, by omega⟩
  have h0 : fsExists ([] : FS) t = false := by simp [fsExists]
  show unique_path [] t :: allocCreate m (fsPut [] (unique_path [] t) 0) t =
    t :: (List.range' 1 (m + 1 - 1)).map (candAt t)
  rw [unique_path_of_not_exists h0]
  congr 1
  rw [show m + 1 - 1 = m by omega]
  refine allocCreate_trace t m 1 _ le_rfl (by omega) ?_
  intro q
  rw [fsExists_put]
  constructor
  · intro hq
    rcases Bool.or_eq_true_iff.mp hq with h1 | h2
    · exact Or.inl (by simpa using h1)
    · simp [fsExists] at h2
  · rintro (he | ⟨i, hi1, hi2, _⟩)
    · exact Bool.or_eq_true_iff.mpr (Or.inl (by simp [he]))
    · omega

/-- The n paths produced by allocate-and-create from an empty filesystem are
pairwise distinct. -/
theorem allocCreate_nodup (t : FilePath) :
    ∀ n, n ≤ 1000 → (allocCreate n [] t).Nodup := by
  intro n hn
  by_cases hn1 : 1 ≤ n
  · rw [allocCreate_empty t n hn hn1]
    refine List.Nodup.cons ?_ ?_
    · intro hmem
      rcases List.mem_map.mp hmem with ⟨i, hi, hie⟩
      exact candAt_ne_self t i hie
    · refine List.Nodup.map_on ?_ (List.nodup_range' 1 (n - 1))
      intro i _ j _ hij
      exact candAt_inj hij
  · have : n = 0 := by omega
    subst this
    exact List.nodup_nil

/-! Rounding: the integer computation of resize_keep_aspect agrees with
round-to-nearest of the exact ratio. -/

theorem roundHalf_eq_round (num den : Nat) (hden : 0 < den) :
    (roundHalf num den : ℤ) = round ((num : ℚ) / (den : ℚ)) := by
  have hd : (den : ℚ) ≠ 0 := Nat.cast_ne_zero.mpr (by omega)
  rw [round_eq]
  have hx : (num : ℚ) / den + 1 / 2 = (((2 * num + den : ℕ) : ℤ) : ℚ) /
      ((2 * den : ℕ) : ℚ) := by
    push_cast
    field_simp
    ring
  rw [hx, Rat.floor_intCast_div_natCast, roundHalf]
  push_cast
  rfl

/-! Soundness of the burst grouping walk. -/

theorem burstStep_good (mtime : FilePath → Option Nat) (st : BurstState)
    (photo : FVRow) (h : GoodState mtime st) :
    GoodState mtime (burstStep mtime st photo) := by
  obtain ⟨hb, hc, hl, he⟩ := h
  cases hlt : st.lastTime with
  | none =>
    have hcur : st.current = [] := by
      cases hg : st.current.getLast? with
      | none => exact List.getLast?_eq_none_iff.mp hg
      | some p =>
        rw [(hl p hg).1] at hlt
        cases hlt
    simp only [burstStep, hlt, hcur, List.nil_append]
    refine ⟨hb, List.chain'_singleton photo, ?_, by simp⟩
    intro p hp
    simp only [List.getLast?_singleton, Option.some.injEq] at hp
    subst hp
    exact ⟨rfl, rfl⟩
  | some lt =>
    have hcur : st.current ≠ [] := by
      intro hnil
      rw [he hnil] at hlt
      cases hlt
    obtain ⟨q, hq⟩ : ∃ q, st.current.getLast? = some q := by
      cases hg : st.current.getLast? with
      | none => exact absurd (List.getLast?_eq_none_iff.mp hg) hcur
      | some p => exact ⟨p, rfl⟩
    obtain ⟨hqt, hqp⟩ := hl q hq
    rw [hlt] at hqt
    by_cases hjoin : burstTs mtime photo.filePath - lt ≤ 10 ∧
        st.lastPref = some (prefixPart photo.filePath)
    · simp only [burstStep, hlt, if_pos hjoin]
      have hpr : prefixPart photo.filePath = prefixPart q.filePath := by
        rw [hqp] at hjoin
        exact (Option.some.injEq _ _ ▸ hjoin.2).symm
      have hjc : joinCond mtime q photo := by
        refine ⟨?_, hpr⟩
        have : lt = burstTs mtime q.filePath := by injection hqt
        rw [← this]
        exact hjoin.1
      refine ⟨hb, ?_, ?_, by simp⟩
      · rw [List.chain'_append]
        refine ⟨hc, List.chain'_singleton photo, ?_⟩
        intro x hx y hy
        rw [hq] at hx
        simp only [Option.mem_def, Option.some.injEq] at hx
        simp only [List.head?_cons, Option.mem_def, Option.some.injEq] at hy
        subst hx
        subst hy
        exact hjc
      · intro p hp
        rw [List.getLast?_concat] at hp
        injection hp with hp
        subst hp
        exact ⟨rfl, rfl⟩
    · simp only [burstStep, hlt, if_neg hjoin]
      refine ⟨?_, List.chain'_singleton photo, ?_, by simp⟩
      · intro g hg
        by_cases hlen : st.current.length > 1
        · rw [if_pos hlen] at hg
          rcases List.mem_append.mp hg with hg1 | hg2
          · exact hb g hg1
          · rw [List.mem_singleton] at hg2
            subst hg2
            exact ⟨by omega, hc⟩
        · rw [if_neg hlen] at hg
          exact hb g hg
      · intro p hp
        simp only [List.getLast?_singleton, Option.some.injEq] at hp
        subst hp
        exact ⟨rfl, rfl⟩

theorem foldl_burstStep_good (mtime : FilePath → Option Nat) :
    ∀ (l : List FVRow) (st : BurstState), GoodState mtime st →
      GoodState mtime (l.foldl (burstStep mtime) st) := by
  intro l
  induction l with
  | nil => intro st h; exact h
  | cons a l ih =>
    intro st h
    exact ih (burstStep mtime st a) (burstStep_good mtime st a h)

/-- Every group emitted by detect_bursts has at least two members, and
consecutive members satisfy the join condition the code evaluates. -/
theorem detect_bursts_sound (mtime : FilePath → Option Nat)
    (rows : List FVRow) :
    ∀ g ∈ detect_bursts mtime rows, 2 ≤ g.length ∧ g.Chain' (joinCond mtime) := by
  intro g hg
  have hinit : GoodState mtime ⟨[], [], none, none⟩ := by
    refine ⟨by simp, List.chain'_nil, ?_, fun _ => rfl⟩
    intro p hp
    simp at hp
  have hfin := foldl_burstStep_good mtime (sortByCreated rows) _ hinit
  obtain ⟨hb, hc, _, _⟩ := hfin
  unfold detect_bursts at hg
  by_cases hlen : ((sortByCreated rows).foldl (burstStep mtime)
      ⟨[], [], none, none⟩).current.length > 1
  · rw [if_pos hlen] at hg
    rcases List.mem_append.mp hg with hg1 | hg2
    · exact hb g hg1
    · rw [List.mem_singleton] at hg2
      subst hg2
      exact ⟨by omega, hc⟩
  · rw [if_neg hlen] at hg
    exact hb g hg

/-! Reads of updated filesystems. -/

theorem fsGet_cons (e : FilePath × Nat) (fs : FS) (q : FilePath) :
    fsGet (e :: fs) q = if e.1 = q then some e.2 else fsGet fs q := by
  by_cases he : e.1 = q
  · simp [fsGet, List.find?_cons, he]
  · simp [fsGet, List.find?_cons, he]

theorem fsGet_erase (fs : FS) (p q : FilePath) :
    fsGet (fsErase fs p) q = if q = p then none else fsGet fs q := by
  induction fs with
  | nil => simp [fsErase, fsGet]
  | cons e fs ih =>
    by_cases hep : e.1 = p
    · rw [show fsErase (e :: fs) p = fsErase fs p by simp [fsErase, hep]]
      rw [ih]
      by_cases hqp : q = p
      · simp [hqp]
      · have hne : e.1 ≠ q := by rw [hep]; exact fun he => hqp he.symm
        simp [hqp, fsGet_cons, hne]
    · rw [show fsErase (e :: fs) p = e :: fsErase fs p by simp [fsErase, hep]]
      rw [fsGet_cons, ih, fsGet_cons]
      by_cases hqp : q = p
      · have hne : e.1 ≠ q := by rw [hqp]; exact hep
        simp [hqp, hne, hep]
      · simp [hqp]

theorem fsGet_put (fs : FS) (p : FilePath) (c : Nat) (q : FilePath) :
    fsGet (fsPut fs p c) q = if q = p then some c else fsGet fs q := by
  rw [fsPut, fsGet_cons, fsGet_erase]
  by_cases hqp : q = p
  · simp [hqp]
  · have hpq : ¬ p = q := fun hh => hqp hh.symm
    simp [hqp, hpq]

theorem find?_isSome_of_mem {α : Type} {p : α → Bool} {l : List α} {x : α}
    (hx : x ∈ l) (hp : p x = true) : (l.find? p).isSome = true := by
  induction l with
  | nil => cases hx
  | cons a l ih =>
    rw [List.find?_cons]
    by_cases ha : p a
    · simp [ha]
    · rcases List.mem_cons.mp hx with he | hm
      · subst he; exact absurd hp (by simpa using ha)
      · simpa [ha] using ih hm

theorem fsExists_of_mem {fs : FS} {e : FilePath × Nat} (he : e ∈ fs) :
    fsExists fs e.1 = true := by
  simp only [fsExists, List.any_eq_true]
  exact ⟨e, he, by simp⟩

/-- Claim C10: path allocation is a pure, deterministic read of the filesystem.
unique_path creates no files and modifies nothing, so successive calls against
the same directory contents all return the same path, and N successive
allocations can yield N distinct paths only if a file is created at each
returned path between calls. -/
theorem C10_alloc_deterministic (fs : FS) (t : FilePath) (n : Nat) :
    allocNoCreate n fs t = List.replicate n (unique_path fs t) ∧
    (2 ≤ n → ¬ (allocNoCreate n fs t).Nodup) := by
  have hrep : ∀ m, allocNoCreate m fs t = List.replicate m (unique_path fs t) := by
    intro m
    induction m with
    | zero => rfl
    | succ m ih =>
      rw [List.replicate_succ]
      show unique_path fs t :: allocNoCreate m fs t = _
      rw [ih]
  refine ⟨hrep n, ?_⟩
  intro h2 hnd
  rw [hrep n] at hnd
  rcases Nat.exists_eq_add_of_le h2 with ⟨k, rfl⟩
  rw [show 2 + k = k + 1 + 1 by omega, List.replicate_succ,
      List.replicate_succ] at hnd
  simp [List.nodup_cons] at hnd

/-- Witness for claim C10 at a concrete target and the empty directory. -/
theorem C10_witness :
    allocNoCreate 2 [] pWitA = List.replicate 2 (unique_path [] pWitA) ∧
    ¬ (allocNoCreate 2 [] pWitA).Nodup := by
  have h := C10_alloc_deterministic [] pWitA 2
  exact ⟨h.1, h.2 (by norm_num)⟩

/-- Counterexample for claim C5: two successive allocations for the same name
against an unchanged empty directory return the same path twice, not two
distinct paths; and when the target and all 999 numbered candidates exist, the
allocator returns the original target, a path at which a file already exists. -/
theorem C5_counterexample :
    allocNoCreate 2 [] pWitA = [pWitA, pWitA] ∧
    ¬ (allocNoCreate 2 [] pWitA).Nodup ∧
    unique_path fsFull pWitA = pWitA ∧
    fsExists fsFull pWitA = true := by
  have hex : fsExists fsFull pWitA = true :=
    fsExists_of_mem (e := (pWitA, 0)) (by rw [fsFull]; exact List.mem_cons_self _ _)
  have hall : ∀ j, 1 ≤ j → j < 1 + 999 →
      fsExists fsFull (candAt pWitA j) = true := by
    intro j hj1 hj2
    refine fsExists_of_mem (e := (candAt pWitA j, 0)) ?_
    rw [fsFull]
    refine List.mem_cons_of_mem _ (List.mem_map.mpr ⟨j, ?_, rfl⟩)
    exact List.mem_range'_1.mpr ⟨hj1, hj2⟩
  have hfall : unique_path fsFull pWitA = pWitA := by
    unfold unique_path
    rw [hex]
    simp only [if_true]
    exact uniqueLoop_all_taken fsFull pWitA 999 1 hall
  refine ⟨by decide, by decide, hfall, hex⟩

/-- Claim C5 (amended): if no file exists at the target the allocator returns
it unchanged; if the target exists and some numbered candidate among
name (1) ... name (999) (extension preserved) is free, it returns the first
free candidate, a path at which no file exists; if the target and all 999
candidates exist it falls back to the original (colliding) target; and N
allocate-and-create rounds (a file created at each returned path before the
next call) for the same base name in an otherwise empty directory return N
distinct paths for every N up to 1000. -/
theorem C5_alloc_amended :
    (∀ (fs : FS) (t : FilePath), fsExists fs t = false → unique_path fs t = t) ∧
    (∀ (fs : FS) (t : FilePath) (k : Nat), fsExists fs t = true →
       1 ≤ k → k ≤ 999 → fsExists fs (candAt t k) = false →
       (∀ j, 1 ≤ j → j < k → fsExists fs (candAt t j) = true) →
       unique_path fs t = candAt t k ∧
       fsExists fs (unique_path fs t) = false) ∧
    (∀ (fs : FS) (t : FilePath), fsExists fs t = true →
       (∀ j, 1 ≤ j → j ≤ 999 → fsExists fs (candAt t j) = true) →
       unique_path fs t = t) ∧
    (∀ (t : FilePath) (n : Nat), n ≤ 1000 → (allocCreate n [] t).Nodup) := by
  refine ⟨?_, ?_, ?_, ?_⟩
  · intro fs t ht
    exact unique_path_of_not_exists ht
  · intro fs t k ht hk1 hk2 hfree hocc
    have hstep : unique_path fs t = candAt t k := by
      unfold unique_path
      rw [ht]
      simp only [if_true]
      exact uniqueLoop_eq_of_first_free fs t 999 1 k hk1 (by omega) hfree
        (fun j hj1 hj2 => hocc j hj1 hj2)
    exact ⟨hstep, by rw [hstep]; exact hfree⟩
  · intro fs t ht hall
    unfold unique_path
    rw [ht]
    simp only [if_true]
    exact uniqueLoop_all_taken fs t 999 1 (fun j hj1 hj2 => hall j hj1 (by omega))
  · intro t n hn
    exact allocCreate_nodup t n hn

/-- Witness for claim C5 at concrete directory states. -/
theorem C5_witness :
    unique_path [] pWitA = pWitA ∧
    (unique_path [(pWitA, 0)] pWitA = candAt pWitA 1 ∧
      fsExists [(pWitA, 0)] (unique_path [(pWitA, 0)] pWitA) = false) ∧
    (allocCreate 3 [] pWitA).Nodup := by
  refine ⟨C5_alloc_amended.1 [] pWitA (by decide),
          C5_alloc_amended.2.1 [(pWitA, 0)] pWitA 1 (by decide) (by norm_num)
            (by norm_num) (by decide) (fun j hj1 hj2 => by omega),
          C5_alloc_amended.2.2.2 pWitA 3 (by norm_num)⟩

/-- Counterexample for claim C8: the scaled side is computed in 32-bit
floating point (h as f32 * (maxDim as f32 / w as f32)).round(), and at width
192, height 120, maxDimension 100 that computation yields 62, while
round(120 x 100 / 192) = round(62.5) = 63 - the produced height is not the
claimed exact rounding. -/
theorem C8_counterexample :
    resize_keep_aspect 192 120 100 = (100, 62) ∧
    round (((120 * 100 : ℕ) : ℚ) / ((192 : ℕ) : ℚ)) = (63 : ℤ) ∧
    ((resize_keep_aspect 192 120 100).2 : ℤ) ≠
      round (((120 * 100 : ℕ) : ℚ) / ((192 : ℕ) : ℚ)) := by
  have hr : round (((120 * 100 : ℕ) : ℚ) / ((192 : ℕ) : ℚ)) = (63 : ℤ) := by
    rw [← roundHalf_eq_round (120 * 100) 192 (by norm_num)]
    decide
  refine ⟨by decide, hr, ?_⟩
  rw [hr]
  decide

/-- Claim C8 (amended): thumbnail resizing never upscales and clamps the
longer side: when both dimensions already fit within maxDimension the image is
used as is; otherwise the branch with width at least height produces width
exactly maxDimension and height equal to the 32-bit-float computation
(h as f32 * (maxDim as f32 / w as f32)).round() as u32, and symmetrically for
the taller branch.  That float value can differ from
round(H x maxDimension / W), but coincides with it on inputs where the float
computation commits no decisive rounding error, such as 1000 x 500 at
maxDimension 512, which yields (512, 256) = (maxDimension, round(500 x 512 / 1000)). -/
theorem C8_thumbnail_aspect (w h m : Nat) :
    (w ≤ m ∧ h ≤ m → resize_keep_aspect w h m = (w, h)) ∧
    (h ≤ w → m < w → resize_keep_aspect w h m = (m, scaledSide h w m)) ∧
    (w < h → m < h → resize_keep_aspect w h m = (scaledSide w h m, m)) ∧
    (resize_keep_aspect 1000 500 512 = (512, 256) ∧
      (256 : ℤ) = round (((500 * 512 : ℕ) : ℚ) / ((1000 : ℕ) : ℚ))) := by
  refine ⟨?_, ?_, ?_, ?_, ?_⟩
  · intro hboth
    rw [resize_keep_aspect, if_pos hboth]
  · intro hhw hmw
    have hcond : ¬ (w ≤ m ∧ h ≤ m) := by omega
    rw [resize_keep_aspect, if_neg hcond, if_pos hhw]
  · intro hwh hmh
    have hcond : ¬ (w ≤ m ∧ h ≤ m) := by omega
    rw [resize_keep_aspect, if_neg hcond, if_neg (by omega : ¬ h ≤ w)]
  · decide
  · rw [← roundHalf_eq_round (500 * 512) 1000 (by norm_num)]
    decide

/-- Witness for claim C8 exercising all three branches at concrete
dimensions. -/
theorem C8_witness :
    resize_keep_aspect 400 300 512 = (400, 300) ∧
    resize_keep_aspect 1000 500 512 = (512, scaledSide 500 1000 512) ∧
    resize_keep_aspect 500 1000 512 = (scaledSide 500 1000 512, 512) :=
  ⟨(C8_thumbnail_aspect 400 300 512).1 (by norm_num),
   (C8_thumbnail_aspect 1000 500 512).2.1 (by norm_num) (by norm_num),
   (C8_thumbnail_aspect 500 1000 512).2.2.1 (by norm_num) (by norm_num)⟩

/-- Counterexample for claim C4: the album photo listing query has no
deleted-timestamp filter, so a soft-deleted row that belongs to an album
appears in the album listing. -/
theorem C4_counterexample :
    rowTrashed ∈ list_album_photos 7 [(7, 9)] [rowTrashed] ∧
    rowTrashed.deletedAt = some 5 := by
  decide

/-- Claim C4 (amended): soft-deleted rows are invisible to the photo listing,
photo search and list-photos-by-person reads, each of which applies the
deleted-timestamp-is-null predicate; the album photo listing does not apply it,
so a soft-deleted row that belongs to an album still appears there (the legacy
grouper scans of the file_versions table carry no deleted filter either). -/
theorem C4_active_reads :
    (∀ (cat : List Row) (r : Row), r ∈ list_photos cat →
       r.deletedAt = none) ∧
    (∀ (f : SearchFilters) (faces : List Face) (pt : List (Nat × Nat))
       (cat : List Row) (r : Row), r ∈ search_photos f faces pt cat →
       r.deletedAt = none) ∧
    (∀ (pid : Nat) (faces : List Face) (cat : List Row) (r : Row),
       r ∈ list_photos_by_person pid faces cat → r.deletedAt = none) := by
  refine ⟨?_, ?_, ?_⟩
  · intro cat r hr
    rcases List.mem_filter.mp hr with ⟨_, hcond⟩
    simpa using hcond
  · intro f faces pt cat r hr
    rcases List.mem_filter.mp hr with ⟨_, hcond⟩
    have h2 := (Bool.and_eq_true _ _ |>.mp hcond).2
    simpa using h2
  · intro pid faces cat r hr
    rcases List.mem_filter.mp hr with ⟨_, hcond⟩
    have h1 := (Bool.and_eq_true _ _ |>.mp hcond).1
    simpa using h1

/-- Witness for claim C4: each filtered read applied at a concrete catalog. -/
theorem C4_witness :
    rowB.deletedAt = none ∧ rowB.deletedAt = none ∧ rowB.deletedAt = none :=
  ⟨C4_active_reads.1 [rowB] rowB (by decide),
   C4_active_reads.2.1 ⟨none, none, none, none, none⟩ [] [] [rowB] rowB
     (by decide),
   C4_active_reads.2.2 5 [⟨1, some 5⟩] [rowB] rowB (by decide)⟩

/-- Claim C2: ingestion is atomic with respect to the catalog.  The row INSERT
runs only after the file copy has succeeded, so when the copy fails with an io
error the call returns the error and leaves the state — in particular the
catalog — unchanged: no orphaned row is created. -/
theorem C2_ingest_atomic (h : Nat → Nat) (root : FilePath) (id now : Nat)
    (src : FilePath) (c : Nat) (s : Sys)
    (hfn : (fileName src).isEmpty = false)
    (hread : fsGet s.fs src = some c)
    (hnodup : s.cat.find? (fun r => decide (r.hash = h c)) = none) :
    add_photo h root true id now src s = (Except.error Err.ioError, s) ∧
    (add_photo h root true id now src s).2.cat = s.cat := by
  have hmain : add_photo h root true id now src s =
      (Except.error Err.ioError, s) := by
    simp [add_photo, sha256_file, hfn, hread, hnodup]
  exact ⟨hmain, by rw [hmain]⟩

/-- Witness for claim C2: a failing copy of a fresh source leaves the concrete
two-file system untouched. -/
theorem C2_witness :
    add_photo (fun x => x) rootMedia true 1 10 srcY sysTwin =
      (Except.error Err.ioError, sysTwin) ∧
    (add_photo (fun x => x) rootMedia true 1 10 srcY sysTwin).2.cat =
      sysTwin.cat :=
  C2_ingest_atomic (fun x => x) rootMedia 1 10 srcY 42 sysTwin
    (by decide) (by decide) (by decide)

/-- Claim C3: promotion is atomic.  The catalog UPDATE runs only after the file
move has succeeded, so when the move fails the call returns an io error and the
state — in particular the row's storage path, tier and updated timestamp — is
unchanged. -/
theorem C3_promote_atomic (root : FilePath) (rf : Bool) (now pid : Nat)
    (tier : String) (s : Sys) (r : Row)
    (htier : validTiers.contains tier = true)
    (hfind : s.cat.find? (fun q => decide (q.id = pid)) = some r)
    (hfn : (fileName r.storagePath).isEmpty = false)
    (hfail : fsGet s.fs r.storagePath = none ∨ rf = true) :
    promote_photo_tier root rf now pid tier s = (Except.error Err.ioError, s) ∧
    r ∈ (promote_photo_tier root rf now pid tier s).2.cat := by
  have hmain : promote_photo_tier root rf now pid tier s =
      (Except.error Err.ioError, s) := by
    have hmem : tier ∈ validTiers := by simpa using htier
    rcases hfail with hnone | hrf
    · simp [promote_photo_tier, hmem, hfind, hfn, hnone]
    · subst hrf
      cases hget : fsGet s.fs r.storagePath with
      | none => simp [promote_photo_tier, hmem, hfind, hfn, hget]
      | some c => simp [promote_photo_tier, hmem, hfind, hfn, hget]
  refine ⟨hmain, ?_⟩
  rw [hmain]
  exact List.mem_of_find?_eq_some hfind

/-- Witness for claim C3: a failing move over the concrete bronze system
returns an error and keeps the row. -/
theorem C3_witness :
    promote_photo_tier rootMedia true 5 1 goldTier sysB =
      (Except.error Err.ioError, sysB) ∧
    rowB ∈ (promote_photo_tier rootMedia true 5 1 goldTier sysB).2.cat :=
  C3_promote_atomic rootMedia true 5 1 goldTier sysB rowB
    (by decide) (by decide) (by decide) (Or.inr rfl)

/-- Counterexample for claim C6: with a file already present at the gold
destination, the POSIX rename of promotion succeeds and silently replaces the
pre-existing destination file; no io error is surfaced and the pre-existing
content (9) is lost to the moved content (7). -/
theorem C6_counterexample :
    fsGet sysGold.fs goldX = some 9 ∧
    (promote_photo_tier rootMedia false 5 1 goldTier sysGold).1 =
      Except.ok () ∧
    fsGet (promote_photo_tier rootMedia false 5 1 goldTier sysGold).2.fs
      goldX = some 7 := by
  decide

/-- Claim C6 (amended): promotion carries the file name over verbatim — the new
path is the target tier directory joined with the current path's file name, with
no collision-avoidance renaming — and under the POSIX semantics of
std::fs::rename a pre-existing same-named destination file is atomically
replaced: the call succeeds with no io error and the destination afterwards
holds the moved file's content. -/
theorem C6_promote_verbatim (root : FilePath) (now pid : Nat) (tier : String)
    (s : Sys) (r : Row) (c : Nat)
    (htier : validTiers.contains tier = true)
    (hfind : s.cat.find? (fun q => decide (q.id = pid)) = some r)
    (hfn : (fileName r.storagePath).isEmpty = false)
    (hread : fsGet s.fs r.storagePath = some c) :
    (promote_photo_tier root false now pid tier s).1 = Except.ok () ∧
    (∀ q ∈ (promote_photo_tier root false now pid tier s).2.cat,
       q.id = pid →
       q.storagePath = tier_dir root tier ++ slash :: fileName r.storagePath ∧
       q.tier = tier ∧ q.updatedAt = now) ∧
    fsGet (promote_photo_tier root false now pid tier s).2.fs
      (tier_dir root tier ++ slash :: fileName r.storagePath) = some c := by
  have hred : promote_photo_tier root false now pid tier s =
      (Except.ok (),
       { fs := fsPut (fsErase s.fs r.storagePath)
           (tier_dir root tier ++ slash :: fileName r.storagePath) c,
         cat := s.cat.map (fun q =>
           if q.id = pid then
             { q with
               storagePath := tier_dir root tier ++ slash ::
                 fileName r.storagePath,
               tier := tier, updatedAt := now }
           else q) }) := by
    have hmem : tier ∈ validTiers := by simpa using htier
    simp [promote_photo_tier, hmem, hfind, hfn, hread]
  rw [hred]
  refine ⟨rfl, ?_, ?_⟩
  · intro q hq hqid
    rcases List.mem_map.mp hq with ⟨q0, hq0, hfq⟩
    by_cases h0 : q0.id = pid
    · rw [if_pos h0] at hfq
      rw [← hfq]
      exact ⟨rfl, rfl, rfl⟩
    · rw [if_neg h0] at hfq
      rw [← hfq] at hqid
      exact absurd hqid h0
  · rw [fsGet_put]
    simp

/-- Witness for claim C6 on the concrete system with an occupied destination. -/
theorem C6_witness :
    (promote_photo_tier rootMedia false 5 1 goldTier sysGold).1 =
      Except.ok () ∧
    fsGet (promote_photo_tier rootMedia false 5 1 goldTier sysGold).2.fs
      (tier_dir rootMedia goldTier ++ slash :: fileName rowB.storagePath) =
      some 7 :=
  ⟨(C6_promote_verbatim rootMedia 5 1 goldTier sysGold rowB 7
      (by decide) (by decide) (by decide) (by decide)).1,
   (C6_promote_verbatim rootMedia 5 1 goldTier sysGold rowB 7
      (by decide) (by decide) (by decide) (by decide)).2.2⟩

/-- Claim C7: non-permanent delete preserves the row.  The destination is the
allocator's path under the shared trash root for the file's current name; the
file is moved there; the same row afterwards carries the trash path and a
non-null deleted timestamp; no row with this id appears in the standard active
listing; and the allocated destination is collision-free whenever the allocator
did not fall back to the original target. -/
theorem C7_soft_delete (trash : FilePath) (now pid : Nat) (s : Sys) (r : Row)
    (c : Nat)
    (hfind : s.cat.find? (fun q => decide (q.id = pid)) = some r)
    (hfn : (fileName r.storagePath).isEmpty = false)
    (hread : fsGet s.fs r.storagePath = some c) :
    (delete_photo trash false now pid false s).1 = Except.ok () ∧
    { r with
      storagePath := unique_path s.fs
        (trash ++ slash :: fileName r.storagePath),
      deletedAt := some now } ∈ (delete_photo trash false now pid false s).2.cat ∧
    (∀ q ∈ list_photos (delete_photo trash false now pid false s).2.cat,
       q.id ≠ pid) ∧
    fsGet (delete_photo trash false now pid false s).2.fs
      (unique_path s.fs (trash ++ slash :: fileName r.storagePath)) = some c ∧
    (fsExists s.fs
        (unique_path s.fs (trash ++ slash :: fileName r.storagePath)) = false ∨
      unique_path s.fs (trash ++ slash :: fileName r.storagePath) =
        trash ++ slash :: fileName r.storagePath) := by
  have hrid : r.id = pid := by
    have := List.find?_some hfind
    simpa using this
  have hred : delete_photo trash false now pid false s =
      (Except.ok (),
       { fs := fsPut (fsErase s.fs r.storagePath)
           (unique_path s.fs (trash ++ slash :: fileName r.storagePath)) c,
         cat := s.cat.map (fun q =>
           if q.id = pid then
             { q with
               storagePath := unique_path s.fs
                 (trash ++ slash :: fileName r.storagePath),
               deletedAt := some now }
           else q) }) := by
    simp [delete_photo, hfind, hfn, hread]
  rw [hred]
  refine ⟨rfl, ?_, ?_, ?_, ?_⟩
  · refine List.mem_map.mpr ⟨r, List.mem_of_find?_eq_some hfind, ?_⟩
    rw [if_pos hrid]
  · intro q hq
    rcases List.mem_filter.mp hq with ⟨hqm, hqd⟩
    rcases List.mem_map.mp hqm with ⟨q0, _, hfq⟩
    by_cases h0 : q0.id = pid
    · rw [if_pos h0] at hfq
      rw [← hfq] at hqd
      simp at hqd
    · rw [if_neg h0] at hfq
      rw [← hfq]
      exact h0
  · rw [fsGet_put]
    simp
  · exact (unique_path_result s.fs
      (trash ++ slash :: fileName r.storagePath)).symm

/-- Witness for claim C7 on the concrete bronze system. -/
theorem C7_witness :
    (delete_photo rootTrash false 99 1 false sysB).1 = Except.ok () ∧
    { rowB with
      storagePath := unique_path sysB.fs
        (rootTrash ++ slash :: fileName rowB.storagePath),
      deletedAt := some 99 } ∈ (delete_photo rootTrash false 99 1 false sysB).2.cat :=
  ⟨(C7_soft_delete rootTrash 99 1 sysB rowB 7
      (by decide) (by decide) (by decide)).1,
   (C7_soft_delete rootTrash 99 1 sysB rowB 7
      (by decide) (by decide) (by decide)).2.1⟩

/-- Counterexample for claim C1: the dedup lookup has no deleted-timestamp
filter.  In a system whose only catalog row is soft-deleted, ingesting a source
with the same content hash is skipped as a duplicate — no copy occurs and the
state is unchanged — even though no active row carries that hash. -/
theorem C1_counterexample :
    (∀ r ∈ sysTrashed.cat, r.deletedAt ≠ none) ∧
    add_photo (fun x => x) rootMedia false 1 10 srcY sysTrashed =
      (Except.ok IngestOutcome.duplicateSkipped, sysTrashed) := by
  decide

/-- Claim C1 (amended): ingestion is idempotent with respect to content, but
the dedup lookup matches any catalog row, soft-deleted rows included: whenever
the source's content hash equals the hash of any existing row, no file copy
occurs and the call returns the duplicate indicator; and ingesting the same
byte content twice, under any filenames, starting from a catalog with no row of
that hash, leaves exactly one catalog row with that hash, which is active. -/
theorem C1_dedup_amended :
    (∀ (h : Nat → Nat) (root : FilePath) (cf : Bool) (id now : Nat)
       (src : FilePath) (c : Nat) (s : Sys),
       (fileName src).isEmpty = false →
       fsGet s.fs src = some c →
       (∃ r ∈ s.cat, r.hash = h c) →
       add_photo h root cf id now src s =
         (Except.ok IngestOutcome.duplicateSkipped, s)) ∧
    (∀ (h : Nat → Nat) (root : FilePath) (id1 now1 id2 now2 : Nat)
       (src1 src2 : FilePath) (c : Nat) (s0 : Sys),
       (fileName src1).isEmpty = false →
       (fileName src2).isEmpty = false →
       fsGet s0.fs src1 = some c →
       fsGet s0.fs src2 = some c →
       (∀ r ∈ s0.cat, r.hash ≠ h c) →
       (add_photo h root false id2 now2 src2
          (add_photo h root false id1 now1 src1 s0).2).1 =
         Except.ok IngestOutcome.duplicateSkipped ∧
       (add_photo h root false id2 now2 src2
          (add_photo h root false id1 now1 src1 s0).2).2 =
         (add_photo h root false id1 now1 src1 s0).2 ∧
       ((add_photo h root false id1 now1 src1 s0).2).cat.countP
         (fun r => decide (r.hash = h c)) = 1 ∧
       (∀ r ∈ ((add_photo h root false id1 now1 src1 s0).2).cat,
          r.hash = h c → r.deletedAt = none)) := by
  constructor
  · intro h root cf id now src c s hfn hread hdup
    have hsome : (s.cat.find? (fun r => decide (r.hash = h c))).isSome = true := by
      rcases hdup with ⟨r, hr, hh⟩
      exact find?_isSome_of_mem hr (by simpa using hh)
    simp [add_photo, sha256_file, hfn, hread, hsome]
  · intro h root id1 now1 id2 now2 src1 src2 c s0 hfn1 hfn2 hr1 hr2 hnone
    have hfindnone : s0.cat.find? (fun r => decide (r.hash = h c)) = none :=
      List.find?_eq_none.mpr (fun r hr => by simpa using hnone r hr)
    have hred1 : add_photo h root false id1 now1 src1 s0 =
        (Except.ok (IngestOutcome.added (unique_path s0.fs
           (tier_dir root bronzeTier ++ slash :: fileName src1))),
         { fs := fsPut s0.fs (unique_path s0.fs
             (tier_dir root bronzeTier ++ slash :: fileName src1)) c,
           cat := { id := id1, originalPath := src1,
                    storagePath := unique_path s0.fs
                      (tier_dir root bronzeTier ++ slash :: fileName src1),
                    tier := bronzeTier, hash := h c, createdAt := now1,
                    updatedAt := now1, deletedAt := none } :: s0.cat }) := by
      simp [add_photo, sha256_file, hfn1, hr1, hfindnone]
    have hr2b : fsGet (fsPut s0.fs (unique_path s0.fs
        (tier_dir root bronzeTier ++ slash :: fileName src1)) c) src2 =
        some c := by
      rw [fsGet_put]
      by_cases hsp : src2 = unique_path s0.fs
          (tier_dir root bronzeTier ++ slash :: fileName src1)
      · simp [hsp]
      · simp [hsp, hr2]
    refine ⟨?_, ?_, ?_, ?_⟩
    · rw [hred1]
      simp [add_photo, sha256_file, hfn2, hr2b, List.find?_cons]
    · rw [hred1]
      simp [add_photo, sha256_file, hfn2, hr2b, List.find?_cons]
    · rw [hred1]
      show ((_ : Row) :: s0.cat).countP _ = 1
      rw [List.countP_cons]
      have hz : s0.cat.countP (fun r => decide (r.hash = h c)) = 0 :=
        List.countP_eq_zero.mpr (fun r hr => by simpa using hnone r hr)
      simp [hz]
    · rw [hred1]
      intro r hr hh
      rcases List.mem_cons.mp hr with he | hm
      · rw [he]
      · exact absurd hh (hnone r hm)

/-- Witness for claim C1: the duplicate branch on the system with a matching
soft-deleted row, and the full two-ingest run on the concrete twin-source
system. -/
theorem C1_witness :
    add_photo (fun x => x) rootMedia false 1 10 srcY sysTrashed =
      (Except.ok IngestOutcome.duplicateSkipped, sysTrashed) ∧
    (add_photo (fun x => x) rootMedia false 2 11 srcZ
       (add_photo (fun x => x) rootMedia false 1 10 srcY sysTwin).2).1 =
      Except.ok IngestOutcome.duplicateSkipped ∧
    ((add_photo (fun x => x) rootMedia false 1 10 srcY sysTwin).2).cat.countP
      (fun r => decide (r.hash = 42)) = 1 :=
  ⟨C1_dedup_amended.1 (fun x => x) rootMedia false 1 10 srcY 42 sysTrashed
     (by decide) (by decide) ⟨rowTrashed, by decide, by decide⟩,
   (C1_dedup_amended.2 (fun x => x) rootMedia 1 10 2 11 srcY srcZ 42 sysTwin
     (by decide) (by decide) (by decide) (by decide)
     (fun r hr => by simp [sysTwin] at hr)).1,
   (C1_dedup_amended.2 (fun x => x) rootMedia 1 10 2 11 srcY srcZ 42 sysTwin
     (by decide) (by decide) (by decide) (by decide)
     (fun r hr => by simp [sysTwin] at hr)).2.2.1⟩

/-- Counterexample for claim C9: burst detection walks rows in catalog
creation order, not modification-time order, and the saturating duration makes
a photo whose modification time is 100 seconds earlier than its predecessor
count as within the window.  The code groups the photos created first and
second (modification times 100 and 0), while the walk the claim describes —
ordered by modification time with a genuine 10-second window — groups the
photos with modification times 100 and 105. -/
theorem C9_counterexample :
    detect_bursts mtCex cexRows = [[cexA, cexB]] ∧
    detectBurstsSpec mtCex cexRows = [[cexA, cexC]] ∧
    detect_bursts mtCex cexRows ≠ detectBurstsSpec mtCex cexRows ∧
    burstTs mtCex cexA.filePath = burstTs mtCex cexB.filePath + 100 := by
  decide

/-- Claim C9 (amended): burst detection is a single linear pass over all
file_versions rows ordered by catalog creation time ascending (not by
filesystem modification time); every returned group has at least two members,
and each member after the first shares the path prefix up to the first
underscore with its predecessor and has a modification time at most 10 seconds
after its predecessor's — or earlier than it, since the saturating duration
maps an earlier time to zero; the IMG_001/IMG_002/IMG_999 scenario with
modification times 0, 5 and 5000 seconds returns exactly one group, holding
IMG_001 and IMG_002. -/
theorem C9_bursts_amended :
    (∀ (mtime : FilePath → Option Nat) (rows : List FVRow),
       ∀ g ∈ detect_bursts mtime rows,
         2 ≤ g.length ∧ g.Chain' (joinCond mtime)) ∧
    detect_bursts mtScen scenRows = [[scenA, scenB]] :=
  ⟨detect_bursts_sound, by decide⟩

/-- Witness for claim C9: the soundness part applied to the scenario group. -/
theorem C9_witness :
    2 ≤ ([scenA, scenB] : List FVRow).length ∧
    List.Chain' (joinCond mtScen) [scenA, scenB] :=
  C9_bursts_amended.1 mtScen scenRows [scenA, scenB] (by decide)

end Pictallion
